import Mathlib

/-!
# Verification of the Autocomplete component (deel-autocomplete-component)

Shallow embedding of `src/components/autocomplete/index.tsx` (the
`setTimeout` variant) and of the Promise-based variant of the same
component.  Strings are modelled as lists of characters; the JavaScript
string operations used by the source (`toLowerCase`, `includes`,
`RegExp`/`replace` with the `gi` flags) are embedded as executable
functions on `List Char`.  The component state and its event handlers
(`handleOnChange`, `onKeyDown`, `onSetSuggestion`, the outside-click
handler, the suggestion-hover handler) are embedded as pure functions on
an explicit state record, and the `setTimeout` scheduling is embedded as
a FIFO queue of pending filter requests (timers with the same fixed
1000 ms delay fire in the order they were scheduled).
-/

/-- JavaScript strings, modelled as lists of characters. -/
abbrev Str := List Char

/-- Model of `String.prototype.toLowerCase`, applied characterwise. -/
def toLowerStr (s : Str) : Str := s.map Char.toLower

/-- `startsWithStr s p` models `s.startsWith(p)`: `p` is a prefix of `s`. -/
def startsWithStr : Str → Str → Bool
  | _, [] => true
  | [], _ :: _ => false
  | c :: s, d :: p => (c == d) && startsWithStr s p

/-- Model of `s.includes(p)`: `p` occurs as a contiguous substring of `s`. -/
def includesStr : Str → Str → Bool
  | [], p => p.isEmpty
  | c :: s, p => startsWithStr (c :: s) p || includesStr s p

theorem startsWithStr_iff (s p : Str) :
    startsWithStr s p = true ↔ ∃ rest, s = p ++ rest := by
  induction p generalizing s with
  | nil => simp [startsWithStr]
  | cons d p ih =>
    cases s with
    | nil => simp [startsWithStr]
    | cons c s =>
      simp only [startsWithStr, Bool.and_eq_true, beq_iff_eq, ih, List.cons_append,
        List.cons.injEq]
      constructor
      · rintro ⟨rfl, rest, rfl⟩
        exact ⟨rest, rfl, rfl⟩
      · rintro ⟨rest, rfl, rfl⟩
        exact ⟨rfl, rest, rfl⟩

theorem includesStr_iff (s p : Str) :
    includesStr s p = true ↔ ∃ pre post, s = pre ++ p ++ post := by
  induction s with
  | nil =>
    simp only [includesStr, List.isEmpty_iff]
    constructor
    · rintro rfl
      exact ⟨[], [], rfl⟩
    · rintro ⟨pre, post, h⟩
      rcases List.append_eq_nil.mp h.symm with ⟨h1, h2⟩
      exact (List.append_eq_nil.mp h1).2
  | cons c s ih =>
    simp only [includesStr, Bool.or_eq_true, startsWithStr_iff, ih]
    constructor
    · rintro (⟨rest, h⟩ | ⟨pre, post, h⟩)
      · exact ⟨[], rest, by simpa using h⟩
      · exact ⟨c :: pre, post, by simp [h]⟩
    · rintro ⟨pre, post, h⟩
      cases pre with
      | nil => exact Or.inl ⟨post, by simpa using h⟩
      | cons a pre =>
        simp only [List.cons_append, List.cons.injEq] at h
        exact Or.inr ⟨pre, post, h.2⟩

/-!
## The filter computation

Both variants compute the filtered suggestion list with
`data.filter(item => (item[filterField] as string).toLowerCase()
  .includes(input.toLowerCase()))`
(inline inside the `setTimeout` callback of `handleOnChange` in the
timeout variant, and inside `filterDataAsync` in the Promise variant).
The field access is passed as an accessor function `field : α → Str`.
-/

/-- The filter computation shared by both variants. -/
def filterData {α : Type} (data : List α) (field : α → Str) (input : Str) : List α :=
  data.filter (fun item => includesStr (toLowerStr (field item)) (toLowerStr input))

/-- `matchesCI s q`: the query `q` occurs in the text `s` as a
case-insensitive contiguous substring (the specification-level predicate). -/
def matchesCI (s q : Str) : Prop :=
  ∃ pre post, toLowerStr s = pre ++ toLowerStr q ++ post

theorem filterData_mem_iff {α : Type} (data : List α) (field : α → Str) (input : Str)
    (x : α) : x ∈ filterData data field input ↔ x ∈ data ∧ matchesCI (field x) input := by
  simp only [filterData, List.mem_filter, matchesCI, includesStr_iff]

/-!
## Component state and event handlers

`CState` collects the four `useState` cells of the component
(`value`, `showSuggestions`, `suggestions`, `activeSuggestion`) together
with `selectedLog`, the ghost log of invocations of the optional host
callback `setSelectedItem` (one list entry per invocation, in order).
The DOM-only scroll side effects of `onKeyDown`
(`suggestionsList.scrollTop = ...`) touch no component state and are
omitted from the embedding.
-/

/-- The keys the `onKeyDown` handler distinguishes; `other` stands for
every other key (the final `else return` branch). -/
inductive Key : Type
  | arrowUp
  | arrowDown
  | escape
  | enter
  | other
deriving DecidableEq

/-- The component's state cells plus the ghost log of host-callback calls. -/
structure CState (α : Type) where
  value : Str
  showSuggestions : Bool
  suggestions : List α
  activeSuggestion : Nat
  selectedLog : List α
deriving DecidableEq

/-- `handleOnChange`: the input's change handler.  It sets `value` to the
new input and resets `activeSuggestion` to 0; if the input is empty it
hides the suggestions and returns without scheduling anything, otherwise
it schedules a delayed filter request capturing the input (the
`setTimeout` body in the timeout variant, `filterDataAsync(input).then`
in the Promise variant).  The second component is the scheduled request's
captured query, if one was scheduled. -/
def handleOnChange {α : Type} (σ : CState α) (input : Str) : CState α × Option Str :=
  if input = [] then
    ({ σ with value := input, activeSuggestion := 0, showSuggestions := false }, none)
  else
    ({ σ with value := input, activeSuggestion := 0 }, some input)

/-- The body of a completed filter request for captured query `q`
(the `setTimeout` callback / the `.then` continuation): it sets
`showSuggestions := true` and replaces `suggestions` with the filtered
list, unconditionally. -/
def resolveFilter {α : Type} (data : List α) (field : α → Str) (σ : CState α)
    (q : Str) : CState α :=
  { σ with showSuggestions := true, suggestions := filterData data field q }

/-- `onKeyDown` of the timeout variant (`src/components/autocomplete/index.tsx`).
The source is an `if / else if` chain on `e.key` with an extra guard on the
two arrow branches; since each branch tests a distinct key, a failed guard
falls through to the final `else return` (a no-op).  The `Enter` branch
reads `suggestions[activeSuggestion][filterField]` with no guard: when
`activeSuggestion` is out of bounds, `suggestions[activeSuggestion]` is
`undefined` and the field access throws a `TypeError` (after
`setShowSuggestions(false)` has already been issued); the aborted handler
is modelled as `none`. -/
def onKeyDown {α : Type} (σ : CState α) (field : α → Str) (k : Key) :
    Option (CState α) :=
  match k with
  | Key.arrowUp =>
      if σ.activeSuggestion ≠ 0 then
        some { σ with activeSuggestion := σ.activeSuggestion - 1 }
      else some σ
  | Key.arrowDown =>
      if σ.activeSuggestion < σ.suggestions.length - 1 then
        some { σ with activeSuggestion := σ.activeSuggestion + 1 }
      else some σ
  | Key.escape =>
      some { σ with showSuggestions := false, value := [] }
  | Key.enter =>
      match σ.suggestions.get? σ.activeSuggestion with
      | some item =>
          some { σ with showSuggestions := false, value := field item,
                        selectedLog := σ.selectedLog ++ [item] }
      | none => none
  | Key.other => some σ

/-- `onKeyDown` of the Promise variant: identical except that the `Enter`
branch is guarded by `value !== "" && suggestions.length > 0`; when the
guard fails the chain falls through to the final `else return`. -/
def onKeyDownP {α : Type} (σ : CState α) (field : α → Str) (k : Key) :
    Option (CState α) :=
  match k with
  | Key.arrowUp =>
      if σ.activeSuggestion ≠ 0 then
        some { σ with activeSuggestion := σ.activeSuggestion - 1 }
      else some σ
  | Key.arrowDown =>
      if σ.activeSuggestion < σ.suggestions.length - 1 then
        some { σ with activeSuggestion := σ.activeSuggestion + 1 }
      else some σ
  | Key.escape =>
      some { σ with showSuggestions := false, value := [] }
  | Key.enter =>
      if σ.value ≠ [] ∧ σ.suggestions.length > 0 then
        match σ.suggestions.get? σ.activeSuggestion with
        | some item =>
            some { σ with showSuggestions := false, value := field item,
                          selectedLog := σ.selectedLog ++ [item] }
        | none => none
      else some σ
  | Key.other => some σ

/-- `onSetSuggestion`: the click handler of a rendered suggestion item. -/
def onSetSuggestion {α : Type} (σ : CState α) (field : α → Str) (item : α) :
    CState α :=
  { σ with showSuggestions := false, value := field item,
           selectedLog := σ.selectedLog ++ [item] }

/-- The `useOnClickOutside` callback: hide the suggestion list. -/
def onClickOutside {α : Type} (σ : CState α) : CState α :=
  { σ with showSuggestions := false }

/-- `onSuggestionItemHover`: set the cursor to the hovered item's index. -/
def onSuggestionItemHover {α : Type} (σ : CState α) (i : Nat) : CState α :=
  { σ with activeSuggestion := i }

/-!
## The event system

A `setTimeout` issued per keystroke is never cancelled, and all timers
use the same fixed 1000 ms delay, so pending filter requests complete in
the order in which they were issued (FIFO).  `Sys` holds the component
state, the FIFO queue of pending captured queries, and two ghost logs:
the queries of all requests issued so far and the queries of all requests
whose results have been committed so far, both in order. -/
structure Sys (α : Type) where
  st : CState α
  pending : List Str
  committed : List Str
  issued : List Str
deriving DecidableEq

/-- The observable events of the component.  `timerFire` completes the
oldest pending filter request.  `clickItem i` / `hoverItem i` are only
available when the list is rendered and item `i` exists (the `li`
elements only exist for indices below `suggestions.length` while
`showSuggestions` is true). -/
inductive Ev : Type
  | input (s : Str)
  | timerFire
  | keyDown (k : Key)
  | clickItem (i : Nat)
  | hoverItem (i : Nat)
  | clickOutside
deriving DecidableEq

/-- One step of the event system; `none` when the event cannot occur in
the given configuration (no pending timer, no such rendered item) or the
handler aborts with a runtime exception. -/
def step {α : Type} (data : List α) (field : α → Str) (e : Ev) (s : Sys α) :
    Option (Sys α) :=
  match e with
  | Ev.input q =>
      match handleOnChange s.st q with
      | (σ, none) => some { s with st := σ }
      | (σ, some r) =>
          some { st := σ, pending := s.pending ++ [r],
                 committed := s.committed, issued := s.issued ++ [r] }
  | Ev.timerFire =>
      match s.pending with
      | [] => none
      | q :: rest =>
          some { s with st := resolveFilter data field s.st q,
                        pending := rest, committed := s.committed ++ [q] }
  | Ev.keyDown k =>
      (onKeyDown s.st field k).map (fun σ => { s with st := σ })
  | Ev.clickItem i =>
      if h : s.st.showSuggestions = true ∧ i < s.st.suggestions.length then
        some { s with st := onSetSuggestion s.st field (s.st.suggestions.get ⟨i, h.2⟩) }
      else none
  | Ev.hoverItem i =>
      if s.st.showSuggestions = true ∧ i < s.st.suggestions.length then
        some { s with st := onSuggestionItemHover s.st i }
      else none
  | Ev.clickOutside =>
      some { s with st := onClickOutside s.st }

/-- Run a list of events from a starting configuration. -/
def run {α : Type} (data : List α) (field : α → Str) (s : Sys α) :
    List Ev → Option (Sys α)
  | [] => some s
  | e :: es =>
      match step data field e s with
      | some s1 => run data field s1 es
      | none => none

/-- The initial configuration of a freshly mounted component. -/
def initSys {α : Type} : Sys α :=
  { st := { value := [], showSuggestions := false, suggestions := [],
            activeSuggestion := 0, selectedLog := [] },
    pending := [], committed := [], issued := [] }

/-!
## The highlighter

`HighlightSearchValue` builds `new RegExp(searchValue, "gi")`, tests it
against the field text, and on success returns
`value.replace(regex, "<span style=...>" + searchValue + "</span>")`
rendered as raw HTML; otherwise it returns the plain text.  The token
model below treats `.` as the any-character pattern and every other query
character as a literal, and inserts the replacement template verbatim.
It is therefore faithful to JavaScript exactly on two kinds of queries:
queries containing none of the regular-expression syntax characters
listed in `regexMeta` (for which `new RegExp` is a case-insensitive
literal matcher, and the interpolated replacement contains no
`$`-replacement pattern), and queries built from `.` alone.  The
universally quantified theorem about the highlighter assumes the query
avoids `regexMeta` entirely; `.` is used only in one concrete
counterexample evaluation, where the model agrees with JavaScript. -/
inductive RTok : Type
  | lit (c : Char)
  | dot
deriving DecidableEq

/-- The JavaScript regular-expression syntax characters: a query
containing any of them (or, for the replacement template, `$`) is not
covered by the token model below, and no universally quantified theorem
here ranges over such queries. -/
def regexMeta : Str :=
  ['\\', '^', '$', '.', '|', '?', '*', '+', '(', ')', '[', ']', '\x7b', '\x7d']

/-- The pattern denoted by `new RegExp(searchValue, "gi")`, within the
modelled fragment: `.` becomes the any-character token and every other
character a literal token.  This is JavaScript's pattern exactly when
the query has no character from `regexMeta`, or when it consists of `.`
patterns only. -/
def parseRegex (q : Str) : List RTok :=
  q.map (fun c => if c = '.' then RTok.dot else RTok.lit c)

/-- One pattern token against one character; the `i` flag makes literal
characters match case-insensitively. -/
def tokMatches (t : RTok) (c : Char) : Bool :=
  match t with
  | RTok.dot => c != '\n'
  | RTok.lit d => c.toLower == d.toLower

/-- Match the pattern at the start of the string, returning the suffix
left after the match. -/
def matchAt : List RTok → Str → Option Str
  | [], s => some s
  | _ :: _, [] => none
  | t :: ts, c :: s => if tokMatches t c then matchAt ts s else none

/-- `regex.test(value)`: some position of `value` starts a match. -/
def searchFrom (pat : List RTok) : Str → Bool
  | [] => (matchAt pat []).isSome
  | c :: s => (matchAt pat (c :: s)).isSome || searchFrom pat s

/-- `value.replace(regex, rep)` with the `g` flag: scan left to right,
replace each leftmost match and continue after it (a zero-width match
advances by one character, as in JavaScript).  Structured with fuel
(any fuel above the string length gives the replace semantics). -/
def replaceGlobalAux (pat : List RTok) (rep : Str) : Nat → Str → Str
  | 0, s => s
  | _ + 1, [] => if (matchAt pat []).isSome then rep else []
  | fuel + 1, c :: s =>
      match matchAt pat (c :: s) with
      | some rest =>
          if rest.length < s.length + 1 then rep ++ replaceGlobalAux pat rep fuel rest
          else rep ++ c :: replaceGlobalAux pat rep fuel s
      | none => c :: replaceGlobalAux pat rep fuel s

/-- The opening of the emphasis marker the source wraps matches in. -/
def spanOpen : Str := "<span style=\"background-color: yellow\">".toList

/-- The closing of the emphasis marker. -/
def spanClose : Str := "</span>".toList

/-- The `HighlightSearchValue` helper component, as a function from the
field text and the raw query to the emitted markup text.  Faithful to
the source for queries avoiding `regexMeta` and for the lone-`.` query
(see the section comment); the replacement template interpolates the raw
`searchValue`, which for such queries contains no `$`-replacement
pattern. -/
def HighlightSearchValue (value searchValue : Str) : Str :=
  if searchFrom (parseRegex searchValue) value then
    replaceGlobalAux (parseRegex searchValue) (spanOpen ++ searchValue ++ spanClose)
      (value.length + 1) value
  else value

/-- Modelled from the spec: wrap only the FIRST case-insensitive literal
occurrence of the query in the emphasis marker, leaving the rest of the
text unchanged; return the plain text when there is no occurrence.  This
is the specification's description of the highlighter, kept separate to
compare against `HighlightSearchValue`. -/
def splitFirstCI : Str → Str → Option (Str × Str × Str)
  | [], q => if q = [] then some ([], [], []) else none
  | c :: s, q =>
      if startsWithStr (toLowerStr (c :: s)) (toLowerStr q) then
        some ([], (c :: s).take q.length, (c :: s).drop q.length)
      else
        match splitFirstCI s q with
        | some (pre, m, post) => some (c :: pre, m, post)
        | none => none

/-- Modelled from the spec (see `splitFirstCI`): the first-match-only
highlighter the specification describes. -/
def highlightFirstSpec (value q : Str) : Str :=
  match splitFirstCI value q with
  | some (pre, m, post) => pre ++ spanOpen ++ m ++ spanClose ++ post
  | none => value

/-- Case-insensitive literal global replacement: replace every leftmost
non-overlapping case-insensitive occurrence of `q`, scanning left to
right (fuel-structured like `replaceGlobalAux`). -/
def replaceAllCIAux (q rep : Str) : Nat → Str → Str
  | 0, s => s
  | _ + 1, [] => []
  | fuel + 1, c :: s =>
      if startsWithStr (toLowerStr (c :: s)) (toLowerStr q) then
        rep ++ replaceAllCIAux q rep fuel ((c :: s).drop q.length)
      else c :: replaceAllCIAux q rep fuel s

/-- Case-insensitive literal global replacement over a whole string. -/
def replaceAllCI (q rep value : Str) : Str :=
  replaceAllCIAux q rep (value.length + 1) value

/-!
## The Promise-based filter and its error path

`filterDataAsync` (Promise variant) wraps the filter in `try/catch` and
rejects on a thrown exception; the `.then` continuation commits the
result and the `.catch` handler rethrows (`throw Error(error)`), so the
rejection escapes the handler and no state setter runs on that path.
The only throwing site inside the `try` is the runtime string coercion
`(item[filterKey] as string).toLowerCase()`; it is embedded as a fallible
accessor `fieldE : α → Option Str` (`none` = the field value is not a
string, so `toLowerCase` throws).  `Array.prototype.filter` evaluates its
predicate left to right and the first throw aborts the whole call. -/
def filterDataAsync {α : Type} (data : List α) (fieldE : α → Option Str)
    (filterValue : Str) : Except Unit (List α) :=
  match data with
  | [] => Except.ok []
  | item :: rest =>
      match fieldE item with
      | none => Except.error ()
      | some fv =>
          match filterDataAsync rest fieldE filterValue with
          | Except.error e => Except.error e
          | Except.ok l =>
              Except.ok
                (if includesStr (toLowerStr fv) (toLowerStr filterValue) then item :: l
                 else l)

/-- The `.then` / `.catch` continuation of `filterDataAsync(input)` inside
`handleOnChange`: on success commit the result to the visible state, on
rejection rethrow (the error escapes; no setter runs). -/
def applyFilterResult {α : Type} (σ : CState α) (r : Except Unit (List α)) :
    Except Unit (CState α) :=
  match r with
  | Except.ok d => Except.ok { σ with showSuggestions := true, suggestions := d }
  | Except.error e => Except.error e

/-- The component state after a possibly-rejected operation: on rejection
the state is whatever it was before. -/
def stateAfter {α : Type} (σ : CState α) (r : Except Unit (CState α)) : CState α :=
  match r with
  | Except.ok σ2 => σ2
  | Except.error _ => σ

theorem filterDataAsync_error_of_mem {α : Type} (data : List α) (fieldE : α → Option Str)
    (q : Str) (a : α) (ha : a ∈ data) (hf : fieldE a = none) :
    filterDataAsync data fieldE q = Except.error () := by
  induction data with
  | nil => cases ha
  | cons b rest ih =>
    rcases List.mem_cons.mp ha with rfl | hmem
    · simp [filterDataAsync, hf]
    · cases hb : fieldE b with
      | none => simp [filterDataAsync, hb]
      | some fv => simp [filterDataAsync, hb, ih hmem]

/-- C3: for every non-empty query `q`, candidate list `L` and filter
field, the filter returns exactly the subsequence of `L` of items whose
field value contains `q` as a case-insensitive substring: the result is a
sublist of `L` (order preserved) and membership holds exactly for the
matching items. -/
theorem filter_exact_ordered_subsequence {α : Type} (L : List α) (field : α → Str)
    (q : Str) (hq : q ≠ []) :
    List.Sublist (filterData L field q) L ∧
    ∀ x, x ∈ filterData L field q ↔ x ∈ L ∧ matchesCI (field x) q :=
  ⟨List.filter_sublist L, fun x => filterData_mem_iff L field q x⟩

/-- Witness for C3 at the spec's own scenario list. -/
theorem filter_exact_ordered_subsequence_witness :
    ("on").toList ≠ ([] : Str) ∧
    (List.Sublist (filterData [("bulbasaur").toList, ("onix").toList] id (("on").toList))
        [("bulbasaur").toList, ("onix").toList] ∧
      ∀ x, x ∈ filterData [("bulbasaur").toList, ("onix").toList] id (("on").toList) ↔
        x ∈ [("bulbasaur").toList, ("onix").toList] ∧ matchesCI (id x) (("on").toList)) :=
  ⟨by decide, filter_exact_ordered_subsequence _ id _ (by decide)⟩

/-- C9: if an exception is thrown while computing the filtered subset
(some item's field value is not a string), the pending operation is
rejected, the `.catch` handler rethrows so the error escapes the
operation, and the component state is not mutated on that path. -/
theorem filter_error_rejects_without_mutation {α : Type} (data : List α)
    (fieldE : α → Option Str) (q : Str) (σ : CState α) (a : α)
    (ha : a ∈ data) (hf : fieldE a = none) :
    filterDataAsync data fieldE q = Except.error () ∧
    applyFilterResult σ (filterDataAsync data fieldE q) = Except.error () ∧
    stateAfter σ (applyFilterResult σ (filterDataAsync data fieldE q)) = σ := by
  have h := filterDataAsync_error_of_mem data fieldE q a ha hf
  refine ⟨h, ?_, ?_⟩ <;> rw [h] <;> rfl

/-- Witness for C9: a one-item list whose field value is not a string. -/
theorem filter_error_rejects_without_mutation_witness :
    (none : Option Str) ∈ [(none : Option Str)] ∧
    (filterDataAsync [(none : Option Str)] id (("a").toList) = Except.error () ∧
      applyFilterResult (initSys : Sys (Option Str)).st
          (filterDataAsync [(none : Option Str)] id (("a").toList)) = Except.error () ∧
      stateAfter (initSys : Sys (Option Str)).st
          (applyFilterResult (initSys : Sys (Option Str)).st
            (filterDataAsync [(none : Option Str)] id (("a").toList))) =
        (initSys : Sys (Option Str)).st) :=
  ⟨by decide,
   filter_error_rejects_without_mutation _ id _ _ none (by decide) (by decide)⟩

/-- C2: in the timeout variant, with the suggestion list visible and
empty, ArrowUp and ArrowDown are no-ops but Enter reads
`suggestions[0][filterField]` out of bounds and the handler aborts with a
runtime `TypeError` (modelled as `none`); the Promise variant's guarded
Enter is a no-op on the same state. -/
theorem enter_on_empty_visible_aborts :
    onKeyDown (⟨("x").toList, true, ([] : List Str), 0, []⟩ : CState Str) id Key.enter =
      none ∧
    onKeyDown (⟨("x").toList, true, ([] : List Str), 0, []⟩ : CState Str) id Key.arrowUp =
      some ⟨("x").toList, true, [], 0, []⟩ ∧
    onKeyDown (⟨("x").toList, true, ([] : List Str), 0, []⟩ : CState Str) id Key.arrowDown =
      some ⟨("x").toList, true, [], 0, []⟩ ∧
    onKeyDownP (⟨("x").toList, true, ([] : List Str), 0, []⟩ : CState Str) id Key.enter =
      some ⟨("x").toList, true, [], 0, []⟩ := by decide

/-- C10: in the Promise variant, Enter with an empty input text is a
no-op (even with non-empty suggestions), and Enter can change the
callback log only when both the input text and the suggestion list are
non-empty. -/
theorem enter_requires_nonempty_text {α : Type} (σ : CState α) (field : α → Str) :
    (σ.value = [] → onKeyDownP σ field Key.enter = some σ) ∧
    (∀ σ2, onKeyDownP σ field Key.enter = some σ2 → σ2.selectedLog ≠ σ.selectedLog →
      σ.value ≠ [] ∧ σ.suggestions ≠ []) := by
  constructor
  · intro hv
    simp [onKeyDownP, hv]
  · intro σ2 hstep hlog
    by_cases hg : σ.value ≠ [] ∧ σ.suggestions.length > 0
    · exact ⟨hg.1, List.length_pos.mp hg.2⟩
    · rw [onKeyDownP, if_neg hg] at hstep
      cases hstep
      exact absurd rfl hlog

/-- Witness for C10: empty input text, non-empty suggestions, Enter is a
no-op. -/
theorem enter_requires_nonempty_text_witness :
    onKeyDownP (⟨[], true, [("onix").toList], 0, []⟩ : CState Str) id Key.enter =
      some ⟨[], true, [("onix").toList], 0, []⟩ :=
  (enter_requires_nonempty_text (⟨[], true, [("onix").toList], 0, []⟩ : CState Str) id).1
    rfl

/-- C5: from a visible state with non-empty suggestions and in-bounds
active index, Enter hides the list, sets the input text to the active
suggestion's field value, and appends exactly one invocation of the host
callback with that suggestion; clicking a suggestion item commits that
item the same way regardless of the active index. -/
theorem enter_commits_active_suggestion {α : Type} (σ : CState α) (field : α → Str)
    (hvis : σ.showSuggestions = true) (hne : σ.suggestions ≠ [])
    (h : σ.activeSuggestion < σ.suggestions.length) :
    onKeyDown σ field Key.enter =
      some { σ with showSuggestions := false,
                    value := field (σ.suggestions.get ⟨σ.activeSuggestion, h⟩),
                    selectedLog :=
                      σ.selectedLog ++ [σ.suggestions.get ⟨σ.activeSuggestion, h⟩] } ∧
    ∀ item, onSetSuggestion σ field item =
      { σ with showSuggestions := false, value := field item,
               selectedLog := σ.selectedLog ++ [item] } := by
  constructor
  · simp [onKeyDown, List.getElem?_eq_getElem h]
  · intro item
    rfl

/-- Witness for C5 at the spec's scenario. -/
theorem enter_commits_active_suggestion_witness :
    (0 : Nat) < ([("onix").toList] : List Str).length ∧
    onKeyDown (⟨("on").toList, true, [("onix").toList], 0, []⟩ : CState Str) id Key.enter =
      some ⟨("onix").toList, false, [("onix").toList], 0, [("onix").toList]⟩ :=
  ⟨by decide,
   (enter_commits_active_suggestion
      (⟨("on").toList, true, [("onix").toList], 0, []⟩ : CState Str) id rfl (by decide)
      (by decide)).1⟩

/-- Every successful `onKeyDown` leaves the `suggestions` cell unchanged. -/
theorem onKeyDown_suggestions {α : Type} (σ σ2 : CState α) (field : α → Str) (k : Key)
    (h : onKeyDown σ field k = some σ2) : σ2.suggestions = σ.suggestions := by
  cases k <;> simp only [onKeyDown] at h
  case arrowUp =>
    split at h <;> (cases h; rfl)
  case arrowDown =>
    split at h <;> (cases h; rfl)
  case escape =>
    cases h; rfl
  case enter =>
    split at h
    · cases h; rfl
    · cases h
  case other =>
    cases h; rfl

/-- The configuration invariant behind stale-result ordering: the issued
ghost log is the committed ghost log followed by the pending queue (so
results commit in issuance order), and the visible suggestions are the
filter result of the most recently committed query. -/
def SysInv {α : Type} (data : List α) (field : α → Str) (s : Sys α) : Prop :=
  s.issued = s.committed ++ s.pending ∧
  ∀ q, s.committed.getLast? = some q → s.st.suggestions = filterData data field q

theorem step_SysInv {α : Type} (data : List α) (field : α → Str) (e : Ev) (s s2 : Sys α)
    (hstep : step data field e s = some s2) (hinv : SysInv data field s) :
    SysInv data field s2 := by
  obtain ⟨h1, h2⟩ := hinv
  cases e with
  | input q =>
    by_cases hq : q = [] <;>
      simp only [step, handleOnChange, hq, if_true, if_false, reduceIte,
        Option.some.injEq] at hstep <;>
      subst hstep
    · exact ⟨h1, h2⟩
    · exact ⟨by simp [h1, List.append_assoc], h2⟩
  | timerFire =>
    rcases hp : s.pending with _ | ⟨q, rest⟩ <;>
      simp only [step, hp, Option.some.injEq] at hstep
    · exact Option.noConfusion hstep
    · subst hstep
      constructor
      · simp [h1, hp]
      · intro q2 hq2
        rw [List.getLast?_concat] at hq2
        cases hq2
        rfl
  | keyDown k =>
    rcases hk : onKeyDown s.st field k with _ | σ2 <;>
      simp only [step, hk, Option.map_none', Option.map_some', Option.some.injEq] at hstep
    · exact Option.noConfusion hstep
    · subst hstep
      exact ⟨h1, fun q hq => by
        rw [onKeyDown_suggestions s.st σ2 field k hk]
        exact h2 q hq⟩
  | clickItem i =>
    rw [step] at hstep
    split at hstep
    · cases hstep
      exact ⟨h1, h2⟩
    · cases hstep
  | hoverItem i =>
    rw [step] at hstep
    split at hstep
    · cases hstep
      exact ⟨h1, h2⟩
    · cases hstep
  | clickOutside =>
    cases hstep
    exact ⟨h1, h2⟩

theorem run_SysInv {α : Type} (data : List α) (field : α → Str) :
    ∀ (evs : List Ev) (s s2 : Sys α), SysInv data field s →
      run data field s evs = some s2 → SysInv data field s2 := by
  intro evs
  induction evs with
  | nil =>
    intro s s2 hinv hrun
    cases hrun
    exact hinv
  | cons e es ih =>
    intro s s2 hinv hrun
    rw [run] at hrun
    rcases hs : step data field e s with _ | s1 <;> rw [hs] at hrun
    · cases hrun
    · exact ih s1 s2 (step_SysInv data field e s s1 hs hinv) hrun

/-- C1 (amended): filter results commit in issuance order.  In every
reachable configuration the issued-request log equals the committed log
followed by the pending FIFO queue — so a superseded request's result is
never committed after the newer request's result, and once every pending
request has completed the visible suggestions are those of the most
recently issued request — and the visible suggestions always equal the
filter result of the most recently committed query. -/
theorem stale_results_commit_in_order {α : Type} (data : List α) (field : α → Str)
    (evs : List Ev) (s : Sys α) (h : run data field initSys evs = some s) :
    s.issued = s.committed ++ s.pending ∧
    ∀ q, s.committed.getLast? = some q → s.st.suggestions = filterData data field q :=
  run_SysInv data field evs initSys s ⟨rfl, fun q hq => by cases hq⟩ h

/-- The configuration reached by typing `"a"` and letting its timer fire. -/
def sysW : Sys Str :=
  { st := { value := ("a").toList, showSuggestions := true,
            suggestions := [("a").toList], activeSuggestion := 0, selectedLog := [] },
    pending := [], committed := [("a").toList], issued := [("a").toList] }

/-- Witness for C1 (amended) on a concrete one-request trace. -/
theorem stale_results_commit_in_order_witness :
    run [("a").toList] id initSys [Ev.input (("a").toList), Ev.timerFire] = some sysW ∧
    sysW.issued = sysW.committed ++ sysW.pending ∧
    sysW.st.suggestions = filterData [("a").toList] id (("a").toList) :=
  ⟨by decide,
   (stale_results_commit_in_order [("a").toList] id
      [Ev.input (("a").toList), Ev.timerFire] sysW (by decide)).1,
   (stale_results_commit_in_order [("a").toList] id
      [Ev.input (("a").toList), Ev.timerFire] sysW (by decide)).2 (("a").toList)
     (by decide)⟩

/-- The configuration refuting C1 as stated: typing `"a"`, then `"ab"`
within the 1000 ms window, then letting the first timer fire. -/
def cex1 : Sys Str :=
  { st := { value := ("ab").toList, showSuggestions := true,
            suggestions := [("a").toList], activeSuggestion := 0, selectedLog := [] },
    pending := [("ab").toList], committed := [("a").toList],
    issued := [("a").toList, ("ab").toList] }

/-- Counterexample to C1 as stated: the second request is issued before
the first request's delay elapses, yet the first (superseded) request's
result is applied to the visible state (`showSuggestions` becomes true
and `suggestions` becomes the stale result) when its timer fires. -/
theorem stale_result_applied_counterexample :
    run [("a").toList] id initSys
        [Ev.input (("a").toList), Ev.input (("ab").toList), Ev.timerFire] = some cex1 ∧
    cex1.st.showSuggestions = true ∧
    cex1.st.suggestions = filterData [("a").toList] id (("a").toList) ∧
    cex1.pending = [("ab").toList] := by decide

/-- C4 (amended): every event other than a pending-timer completion
preserves the invariant "empty query text implies hidden suggestions"
(and an empty input event establishes it outright); the invariant is
not preserved by stale timer completions. -/
theorem empty_query_hidden_under_user_events {α : Type} (data : List α)
    (field : α → Str) (e : Ev) (s s2 : Sys α) (hne : e ≠ Ev.timerFire)
    (hstep : step data field e s = some s2)
    (hinv : s.st.value = [] → s.st.showSuggestions = false)
    (hval : s2.st.value = []) : s2.st.showSuggestions = false := by
  cases e with
  | input q =>
    by_cases hq : q = [] <;>
      simp only [step, handleOnChange, hq, if_true, if_false, reduceIte,
        Option.some.injEq] at hstep <;> subst hstep
    · rfl
    · exact absurd hval hq
  | timerFire => exact absurd rfl hne
  | keyDown k =>
    rcases hk : onKeyDown s.st field k with _ | σ2 <;>
      simp only [step, hk, Option.map_none', Option.map_some', Option.some.injEq] at hstep
    · exact Option.noConfusion hstep
    · subst hstep
      cases k <;> simp only [onKeyDown] at hk
      case arrowUp =>
        split at hk <;> (cases hk; exact hinv hval)
      case arrowDown =>
        split at hk <;> (cases hk; exact hinv hval)
      case escape =>
        cases hk; rfl
      case enter =>
        split at hk
        · cases hk; rfl
        · cases hk
      case other =>
        cases hk; exact hinv hval
  | clickItem i =>
    rw [step] at hstep
    split at hstep
    · cases hstep; rfl
    · cases hstep
  | hoverItem i =>
    rw [step] at hstep
    split at hstep
    · cases hstep; exact hinv hval
    · cases hstep
  | clickOutside =>
    cases hstep; rfl

/-- Witness for C4 (amended): an outside click on the initial
configuration keeps the invariant. -/
theorem empty_query_hidden_under_user_events_witness :
    step ([] : List Str) id Ev.clickOutside initSys = some initSys ∧
    (initSys : Sys Str).st.showSuggestions = false :=
  ⟨by decide,
   empty_query_hidden_under_user_events ([] : List Str) id Ev.clickOutside initSys initSys
     (by decide) (by decide) (by decide) (by decide)⟩

/-- The configuration refuting C4 as stated: type `"a"`, clear the input
before the 1000 ms delay elapses, then let the stale timer fire. -/
def cex4 : Sys Str :=
  { st := { value := [], showSuggestions := true, suggestions := [("a").toList],
            activeSuggestion := 0, selectedLog := [] },
    pending := [], committed := [("a").toList], issued := [("a").toList] }

/-- Counterexample to C4 as stated: a reachable state with empty query
text and visible suggestions. -/
theorem empty_query_visible_counterexample :
    run [("a").toList] id initSys
        [Ev.input (("a").toList), Ev.input [], Ev.timerFire] = some cex4 ∧
    cex4.st.value = [] ∧
    cex4.st.showSuggestions = true := by decide

/-- C6 (amended): ArrowUp at index 0 and ArrowDown at the last index are
no-ops, ArrowUp/ArrowDown otherwise move the cursor by one, and every
keystroke resets the cursor to 0; moreover every event other than a
pending-timer completion preserves the bounds invariant
"`suggestions` non-empty → `activeSuggestion < len(suggestions)`".  A
stale timer completion can replace `suggestions` with a shorter list
without touching `activeSuggestion` and thereby break the invariant. -/
theorem cursor_moves_and_bounds_under_user_events {α : Type} (data : List α)
    (field : α → Str) :
    (∀ σ : CState α,
      (σ.activeSuggestion = 0 → onKeyDown σ field Key.arrowUp = some σ) ∧
      (σ.activeSuggestion ≠ 0 →
        onKeyDown σ field Key.arrowUp =
          some { σ with activeSuggestion := σ.activeSuggestion - 1 }) ∧
      (σ.activeSuggestion = σ.suggestions.length - 1 →
        onKeyDown σ field Key.arrowDown = some σ) ∧
      (σ.activeSuggestion < σ.suggestions.length - 1 →
        onKeyDown σ field Key.arrowDown =
          some { σ with activeSuggestion := σ.activeSuggestion + 1 }) ∧
      (∀ q, ((handleOnChange σ q).1).activeSuggestion = 0)) ∧
    (∀ (e : Ev) (s s2 : Sys α), e ≠ Ev.timerFire →
      step data field e s = some s2 →
      (s.st.suggestions ≠ [] → s.st.activeSuggestion < s.st.suggestions.length) →
      (s2.st.suggestions ≠ [] → s2.st.activeSuggestion < s2.st.suggestions.length)) := by
  constructor
  · intro σ
    refine ⟨?_, ?_, ?_, ?_, ?_⟩
    · intro h0
      simp [onKeyDown, h0]
    · intro h0
      simp [onKeyDown, h0]
    · intro hlast
      have : ¬ σ.activeSuggestion < σ.suggestions.length - 1 := by omega
      simp [onKeyDown, this]
    · intro hlt
      simp [onKeyDown, hlt]
    · intro q
      by_cases hq : q = [] <;> simp [handleOnChange, hq]
  · intro e s s2 hne hstep hinv hne2
    cases e with
    | input q =>
      by_cases hq : q = [] <;>
        simp only [step, handleOnChange, hq, if_true, if_false, reduceIte,
          Option.some.injEq] at hstep <;> subst hstep <;>
        exact List.length_pos.mpr (by simpa using hne2)
    | timerFire => exact absurd rfl hne
    | keyDown k =>
      rcases hk : onKeyDown s.st field k with _ | σ2 <;>
        simp only [step, hk, Option.map_none', Option.map_some',
          Option.some.injEq] at hstep
      · exact Option.noConfusion hstep
      · subst hstep
        cases k <;> simp only [onKeyDown] at hk
        case arrowUp =>
          split at hk <;> cases hk
          · have h := hinv (by simpa using hne2)
            simp only [] at hne2 ⊢
            omega
          · exact hinv hne2
        case arrowDown =>
          split at hk <;> cases hk
          · simp only [] at hne2 ⊢
            omega
          · exact hinv hne2
        case escape =>
          cases hk; exact hinv hne2
        case enter =>
          split at hk
          · cases hk; exact hinv hne2
          · cases hk
        case other =>
          cases hk; exact hinv hne2
    | clickItem i =>
      rw [step] at hstep
      split at hstep
      · cases hstep; exact hinv hne2
      · cases hstep
    | hoverItem i =>
      rw [step] at hstep
      split at hstep
      case isTrue hg =>
        cases hstep
        exact hg.2
      case isFalse hg =>
        cases hstep
    | clickOutside =>
      cases hstep; exact hinv hne2

/-- Witness for C6 (amended): ArrowUp is a no-op at cursor 0 with two
suggestions. -/
theorem cursor_moves_and_bounds_under_user_events_witness :
    onKeyDown (⟨("a").toList, true, [("a").toList, ("ab").toList], 0, []⟩ : CState Str)
        id Key.arrowUp =
      some ⟨("a").toList, true, [("a").toList, ("ab").toList], 0, []⟩ :=
  ((cursor_moves_and_bounds_under_user_events ([] : List Str) id).1
    (⟨("a").toList, true, [("a").toList, ("ab").toList], 0, []⟩ : CState Str)).1 rfl

/-- The configuration refuting the bounds invariant of C6 as stated:
type `"a"`, type `"ab"` within the delay window, let the first timer
fire (two suggestions), press ArrowDown (cursor 1), then let the second
timer fire (one suggestion, cursor still 1). -/
def cex6 : Sys Str :=
  { st := { value := ("ab").toList, showSuggestions := true,
            suggestions := [("ab").toList], activeSuggestion := 1, selectedLog := [] },
    pending := [], committed := [("a").toList, ("ab").toList],
    issued := [("a").toList, ("ab").toList] }

/-- Counterexample to the bounds invariant of C6 as stated: a reachable
state with a non-empty suggestion list and `activeSuggestion` outside
`[0, len(suggestions))`. -/
theorem cursor_out_of_bounds_counterexample :
    run [("a").toList, ("ab").toList] id initSys
        [Ev.input (("a").toList), Ev.input (("ab").toList), Ev.timerFire,
         Ev.keyDown Key.arrowDown, Ev.timerFire] = some cex6 ∧
    cex6.st.suggestions ≠ [] ∧
    ¬ cex6.st.activeSuggestion < cex6.st.suggestions.length := by decide

/-- C8 (amended): Escape hides the list and clears the input text while
leaving the suggestions, cursor and callback log unchanged; an outside
click hides the list while leaving the input text, suggestions, cursor
and callback log unchanged and invoking no callback.  (Commit
transitions — Enter and a suggestion click — also hide the list but set
the input text to the committed item's field value and invoke the
callback; see the counterexample.) -/
theorem escape_clears_and_outside_click_preserves {α : Type} (σ : CState α)
    (field : α → Str) :
    onKeyDown σ field Key.escape =
      some { σ with showSuggestions := false, value := [] } ∧
    onClickOutside σ = { σ with showSuggestions := false } ∧
    (onClickOutside σ).value = σ.value ∧
    (onClickOutside σ).selectedLog = σ.selectedLog ∧
    (onKeyDown σ field Key.escape).map CState.selectedLog = some σ.selectedLog :=
  ⟨rfl, rfl, rfl, rfl, rfl⟩

/-- Counterexample to C8 as stated: pressing Enter in a visible state is
a transition to Hidden that is caused neither by the query becoming
empty nor by Escape, yet it changes the query text and invokes the host
callback. -/
theorem hide_transition_changes_text_counterexample :
    onKeyDown (⟨("on").toList, true, [("onix").toList], 0, []⟩ : CState Str) id
        Key.enter =
      some ⟨("onix").toList, false, [("onix").toList], 0, [("onix").toList]⟩ ∧
    ("on").toList ≠ ([] : Str) ∧
    ("onix").toList ≠ ("on").toList := by decide


theorem toLowerStr_ne_nil (q : Str) (hq : q ≠ []) : toLowerStr q ≠ [] := by
  cases q with
  | nil => exact absurd rfl hq
  | cons c s => simp [toLowerStr]

theorem startsWithStr_nil_of_ne (p : Str) (hp : p ≠ []) :
    startsWithStr [] p = false := by
  cases p with
  | nil => exact absurd rfl hp
  | cons c s => rfl

theorem isSome_ite_some {β : Type} (b : Bool) (x : β) :
    (if b = true then some x else none).isSome = b := by
  cases b <;> simp

/-- For a query free of the `.` metacharacter, matching its pattern at
the start of a string is exactly a case-insensitive literal prefix
check, consuming `q.length` characters. -/
theorem matchAt_parseRegex :
    ∀ (q s : Str), ('.') ∉ q →
      matchAt (parseRegex q) s =
        (if startsWithStr (toLowerStr s) (toLowerStr q) then some (s.drop q.length)
         else none) := by
  intro q
  induction q with
  | nil =>
    intro s hdot
    cases s <;> rfl
  | cons d q ih =>
    intro s hdot
    have hd : d ≠ '.' := fun h => hdot (by simp [h])
    have hdot2 : ('.') ∉ q := fun h => hdot (List.mem_cons_of_mem d h)
    have e1 : parseRegex (d :: q) = RTok.lit d :: parseRegex q := by
      simp [parseRegex, hd]
    cases s with
    | nil =>
      rw [e1]
      rfl
    | cons c s =>
      rw [e1]
      show (if tokMatches (RTok.lit d) c = true then matchAt (parseRegex q) s
            else none) =
        (if ((Char.toLower c == Char.toLower d) &&
              startsWithStr (toLowerStr s) (toLowerStr q)) = true
         then some (s.drop q.length) else none)
      rw [show tokMatches (RTok.lit d) c = (Char.toLower c == Char.toLower d) from rfl]
      rw [ih s hdot2]
      by_cases hcd : (Char.toLower c == Char.toLower d) = true
      · rw [hcd]
        by_cases hsw : startsWithStr (toLowerStr s) (toLowerStr q) = true
        · rw [hsw]
          simp
        · simp only [Bool.not_eq_true] at hsw
          rw [hsw]
          simp
      · have hcd2 : (Char.toLower c == Char.toLower d) = false := by
          simpa using hcd
        rw [hcd2]
        simp

/-- For a non-empty `.`-free query, `regex.test(value)` coincides with
the case-insensitive substring check. -/
theorem searchFrom_eq_includes (q : Str) (hq : q ≠ []) (hdot : ('.') ∉ q) :
    ∀ value : Str,
      searchFrom (parseRegex q) value =
        includesStr (toLowerStr value) (toLowerStr q) := by
  have hlq := toLowerStr_ne_nil q hq
  intro value
  induction value with
  | nil =>
    rw [searchFrom, matchAt_parseRegex q [] hdot]
    have hsw0 : startsWithStr (toLowerStr ([] : Str)) (toLowerStr q) = false :=
      startsWithStr_nil_of_ne (toLowerStr q) hlq
    rw [hsw0]
    have h1 : includesStr (toLowerStr ([] : Str)) (toLowerStr q) = false := by
      show (toLowerStr q).isEmpty = false
      cases hq2 : toLowerStr q with
      | nil => exact absurd hq2 hlq
      | cons a p => rfl
    rw [h1]
    rfl
  | cons c s ih =>
    rw [searchFrom, matchAt_parseRegex q (c :: s) hdot, ih]
    have hrhs : includesStr (toLowerStr (c :: s)) (toLowerStr q) =
        (startsWithStr (toLowerStr (c :: s)) (toLowerStr q) ||
          includesStr (toLowerStr s) (toLowerStr q)) := rfl
    rw [hrhs, isSome_ite_some]

/-- For a non-empty `.`-free query the `gi`-flagged global replacement
coincides with case-insensitive literal global replacement. -/
theorem replaceGlobalAux_eq_replaceAllCIAux (q rep : Str) (hq : q ≠ [])
    (hdot : ('.') ∉ q) :
    ∀ (fuel : Nat) (s : Str),
      replaceGlobalAux (parseRegex q) rep fuel s = replaceAllCIAux q rep fuel s := by
  have hq1 : 1 ≤ q.length := List.length_pos.mpr hq
  intro fuel
  induction fuel with
  | zero => intro s; rfl
  | succ fuel ih =>
    intro s
    cases s with
    | nil =>
      rw [replaceGlobalAux, replaceAllCIAux, matchAt_parseRegex q [] hdot]
      have hsw0 : startsWithStr (toLowerStr ([] : Str)) (toLowerStr q) = false :=
        startsWithStr_nil_of_ne (toLowerStr q) (toLowerStr_ne_nil q hq)
      rw [hsw0]
      rfl
    | cons c s =>
      by_cases hsw : startsWithStr (toLowerStr (c :: s)) (toLowerStr q) = true
      · have hm : matchAt (parseRegex q) (c :: s) = some ((c :: s).drop q.length) := by
          rw [matchAt_parseRegex q (c :: s) hdot]
          simp [hsw]
        have hlen : ((c :: s).drop q.length).length < s.length + 1 := by
          rw [List.length_drop]
          simp only [List.length_cons]
          omega
        simp only [replaceGlobalAux, replaceAllCIAux, hm, hsw]
        rw [if_pos hlen, ih]
        simp
      · simp only [Bool.not_eq_true] at hsw
        have hm : matchAt (parseRegex q) (c :: s) = none := by
          rw [matchAt_parseRegex q (c :: s) hdot]
          simp [hsw]
        simp only [replaceGlobalAux, replaceAllCIAux, hm, hsw]
        rw [ih]
        simp

/-- C7 (amended): the highlighter is a pure function of the field text
and the raw query; for a non-empty query free of regex metacharacters,
the found-test coincides with the case-insensitive substring check and,
when the query occurs, EVERY leftmost non-overlapping case-insensitive
occurrence is replaced by the emphasis marker wrapping the query text as
typed (not only the first occurrence); otherwise the plain text is
returned.  (Queries containing regex syntax characters are outside this
theorem's domain; the counterexample shows concretely that `.` is not
treated literally.) -/
theorem highlighter_wraps_every_match (value q : Str) (hq : q ≠ [])
    (hlit : ∀ c ∈ q, c ∉ regexMeta) :
    searchFrom (parseRegex q) value = includesStr (toLowerStr value) (toLowerStr q) ∧
    HighlightSearchValue value q =
      (if includesStr (toLowerStr value) (toLowerStr q) = true then
        replaceAllCI q (spanOpen ++ q ++ spanClose) value
      else value) := by
  have hdot : ('.') ∉ q := fun h => hlit '.' h (by decide)
  refine ⟨searchFrom_eq_includes q hq hdot value, ?_⟩
  rw [HighlightSearchValue, searchFrom_eq_includes q hq hdot value]
  by_cases hin : includesStr (toLowerStr value) (toLowerStr q) = true
  · rw [if_pos hin, if_pos hin]
    exact replaceGlobalAux_eq_replaceAllCIAux q _ hq hdot (value.length + 1) value
  · rw [if_neg hin, if_neg hin]

/-- Witness for C7 (amended) at text `"aba"`, query `"a"`. -/
theorem highlighter_wraps_every_match_witness :
    ("a").toList ≠ ([] : Str) ∧
    (∀ c ∈ ("a").toList, c ∉ regexMeta) ∧
    (searchFrom (parseRegex (("a").toList)) (("aba").toList) =
        includesStr (toLowerStr (("aba").toList)) (toLowerStr (("a").toList)) ∧
      HighlightSearchValue (("aba").toList) (("a").toList) =
        (if includesStr (toLowerStr (("aba").toList)) (toLowerStr (("a").toList)) = true
         then
          replaceAllCI (("a").toList) (spanOpen ++ ("a").toList ++ spanClose)
            (("aba").toList)
         else ("aba").toList)) :=
  ⟨by decide, by decide,
   highlighter_wraps_every_match (("aba").toList) (("a").toList) (by decide)
     (by decide)⟩

/-- Counterexample to C7 as stated: on text `"aba"` and query `"a"` the
source wraps BOTH occurrences, not exactly the first one as the claim
requires (`highlightFirstSpec` is the claim's described behaviour), and
on text `"b"` and query `"."` the metacharacter is not treated literally:
`"."` is not a substring of `"b"` yet the output is not the plain text. -/
theorem highlighter_first_match_counterexample :
    HighlightSearchValue (("aba").toList) (("a").toList) =
      spanOpen ++ ("a").toList ++ spanClose ++ ("b").toList ++
        spanOpen ++ ("a").toList ++ spanClose ∧
    highlightFirstSpec (("aba").toList) (("a").toList) =
      spanOpen ++ ("a").toList ++ spanClose ++ ("ba").toList ∧
    HighlightSearchValue (("aba").toList) (("a").toList) ≠
      highlightFirstSpec (("aba").toList) (("a").toList) ∧
    HighlightSearchValue (("b").toList) ((".").toList) ≠ ("b").toList := by decide
